import Mathlib

/-!
Verification of the meme-coin aggregator backend
(`src/backend/src/services/Aggregator.ts`, `CacheService.ts`,
`providers/DexScreenerProvider.ts`, `config/index.ts`,
`routes` in the express router).

The TypeScript code is shallowly embedded: JavaScript `Map<string, T>`
becomes an insertion-ordered association list, JS numbers become `ℚ`
(with a small explicit model of the IEEE special values produced by
division by zero where the code can hit them), and fallible operations
become total functions over explicit outcome parameters.
-/

set_option autoImplicit false

namespace MemeAgg

/-- Canonical token record, mirroring `Token` in `src/backend/src/types`.
Numeric JS fields are embedded as rationals; `price_7d_change` is the one
optional numeric field the pipeline leaves unset on enrichment failure. -/
structure Token where
  token_address : String
  token_name : String
  token_ticker : String
  price_sol : ℚ
  market_cap_sol : ℚ
  volume_sol : ℚ
  liquidity_sol : ℚ
  transaction_count : ℚ
  price_1hr_change : ℚ
  price_24hr_change : ℚ
  price_7d_change : Option ℚ
  protocol : String
  sources : List String
  last_updated : ℕ
deriving DecidableEq, Repr

/-- Insertion-ordered string-keyed map, the embedding of a JS `Map`:
`Map.prototype.set` updates an existing key in place and otherwise
appends, and iteration (`Array.from(map.values())`) is in insertion
order, exactly as an association list updated by `mapSet`. -/
abbrev AListM (α : Type) := List (String × α)

/-- Embedding of `Map.prototype.get`. -/
def mapGet {α : Type} : AListM α → String → Option α
  | [], _ => none
  | (k, v) :: rest, key => if k = key then some v else mapGet rest key

/-- Embedding of `Map.prototype.set`: replace in place, else append. -/
def mapSet {α : Type} : AListM α → String → α → AListM α
  | [], key, value => [(key, value)]
  | (k, v) :: rest, key, value =>
      if k = key then (key, value) :: rest else (k, v) :: mapSet rest key value

/-- Embedding of a key-removing store operation (redis `del`). -/
def mapDelete {α : Type} (m : AListM α) (key : String) : AListM α :=
  m.filter (fun e => e.1 ≠ key)

/-- Keys of an association-list map, in order. -/
def mapKeys {α : Type} (m : AListM α) : List String := m.map Prod.fst

/-- `config.rateLimit.maxRetries`. -/
def rateLimit_maxRetries : ℕ := 3

/-- `config.rateLimit.baseDelay` in milliseconds. -/
def rateLimit_baseDelay : ℕ := 1000

/-- `config.rateLimit.maxDelay` in milliseconds. -/
def rateLimit_maxDelay : ℕ := 10000

/-- `config.pagination.defaultLimit`. -/
def pagination_defaultLimit : Int := 25

/-- `config.pagination.maxLimit`. -/
def pagination_maxLimit : Int := 50

/-! ### Merge engine (`Aggregator.mergeTokens`) -/

/-- Embedding of `String.prototype.toLowerCase()` as a per-character
lowering (token addresses are ASCII base58 strings, for which the
JS and per-char semantics agree). -/
def strLower (s : String) : String := String.mk (s.data.map Char.toLower)

/-- One step of the first loop of `mergeTokens`: DexScreener tokens are
inserted keyed by lower-cased address, and a token with a missing or
empty (falsy) address is skipped. -/
def dexInsert (m : AListM Token) (token : Token) : AListM Token :=
  if token.token_address ≠ "" then
    mapSet m (strLower token.token_address) token
  else m

/-- The record produced when a Jupiter token meets an existing entry:
spread of the existing record, `"Jupiter"` appended to `sources`, and
`volume_sol` widened to the maximum of the two. -/
def mergeRec (existing jupToken : Token) : Token :=
  { existing with
      sources := existing.sources ++ ["Jupiter"],
      volume_sol := max existing.volume_sol jupToken.volume_sol }

/-- One step of the second loop of `mergeTokens`: a Jupiter token with a
falsy address is skipped; otherwise it merges into an existing entry at
its lower-cased address or is added verbatim. -/
def jupStep (m : AListM Token) (jupToken : Token) : AListM Token :=
  if jupToken.token_address = "" then m
  else
    let address := strLower jupToken.token_address
    match mapGet m address with
    | some existing => mapSet m address (mergeRec existing jupToken)
    | none => mapSet m address jupToken

/-- The internal `tokenMap` of `mergeTokens` after both loops. -/
def mergeMap (dexTokens jupiterTokens : List Token) : AListM Token :=
  jupiterTokens.foldl jupStep (dexTokens.foldl dexInsert [])

/-- `Aggregator.mergeTokens`: build the map, then `Array.from(map.values())`. -/
def mergeTokens (dexTokens jupiterTokens : List Token) : List Token :=
  (mergeMap dexTokens jupiterTokens).map Prod.snd

/-- The identity key of a token: its lower-cased address. -/
def lowkey (t : Token) : String := strLower t.token_address

/-- Well-formedness invariant of the internal token map: keys are
pairwise distinct and every entry is stored under the lower-cased
address of its record, which is non-empty. -/
def goodMap (m : AListM Token) : Prop :=
  (mapKeys m).Nodup ∧ ∀ e ∈ m, e.2.token_address ≠ "" ∧ e.1 = lowkey e.2

/-- Keys of the per-adapter deduplicated output (spec section 4.1: each
adapter deduplicates its own output by identity key before returning). -/
def adapterKeys (tokens : List Token) : List String :=
  (tokens.filter (fun t => t.token_address ≠ "")).map lowkey

/-- Provenance: every value of the map carries the address of some valid
input record. -/
def fromInputs (inputs : List Token) (m : AListM Token) : Prop :=
  ∀ e ∈ m, ∃ t ∈ inputs, t.token_address ≠ "" ∧ e.2.token_address = t.token_address

/-- A neutral token record; samples override individual fields. -/
def baseTok : Token :=
  { token_address := "", token_name := "Name", token_ticker := "TKR",
    price_sol := 0, market_cap_sol := 0, volume_sol := 0, liquidity_sol := 0,
    transaction_count := 0, price_1hr_change := 0, price_24hr_change := 0,
    price_7d_change := none, protocol := "", sources := [], last_updated := 0 }

/-- A DexScreener-shaped record (as `transformToToken` produces). -/
def dexSample : Token :=
  { baseTok with
    token_address := "AbC1"
    price_sol := 2
    market_cap_sol := 30
    volume_sol := 100
    liquidity_sol := 40
    price_1hr_change := 1
    protocol := "raydium"
    sources := ["DexScreener"] }

/-- A Jupiter-shaped record with the same identity key as `dexSample`. -/
def jupSample : Token :=
  { baseTok with
    token_address := "aBc1"
    price_sol := 3
    market_cap_sol := 50
    volume_sol := 250
    liquidity_sol := 60
    price_1hr_change := 7
    protocol := "Jupiter"
    sources := ["Jupiter"] }

/-- A token with its `sources` field blanked, used to compare merge
results on every field other than `sources`. -/
def eraseSources (t : Token) : Token := { t with sources := [] }

/-- Entry-level variant of `eraseSources`. -/
def projES (e : String × Token) : String × Token := (e.1, eraseSources e.2)

/-- The JS number values reachable by the detector's arithmetic: a
finite value, the two infinities produced by dividing a non-zero value
by zero, and the NaN produced by `0 / 0`. -/
inductive JSVal where
  | num (q : ℚ)
  | posInf
  | negInf
  | nan
deriving DecidableEq, Repr

/-- JS division of two finite values, with IEEE zero-divisor results. -/
def jsDiv (a b : ℚ) : JSVal :=
  if b = 0 then
    if 0 < a then .posInf else if a < 0 then .negInf else .nan
  else .num (a / b)

/-- JS multiplication of an intermediate value by the literal `100`. -/
def jsMul100 : JSVal → JSVal
  | .num q => .num (q * 100)
  | .posInf => .posInf
  | .negInf => .negInf
  | .nan => .nan

/-- `Math.abs` on the intermediate value. -/
def jsAbs : JSVal → JSVal
  | .num q => .num |q|
  | .posInf => .posInf
  | .negInf => .posInf
  | .nan => .nan

/-- JS `>` against a finite literal: `NaN > c` is false. -/
def jsGt (v : JSVal) (c : ℚ) : Bool :=
  match v with
  | .num q => decide (q > c)
  | .posInf => true
  | .negInf => false
  | .nan => false

/-- The price-delta test of `detectChanges`:
`Math.abs(((token.price_sol - previous.price_sol) / previous.price_sol) * 100) > 5`. -/
def priceFlag (previous token : Token) : Bool :=
  jsGt (jsAbs (jsMul100 (jsDiv (token.price_sol - previous.price_sol)
    previous.price_sol))) 5

/-- The volume-spike test of `detectChanges`:
`((token.volume_sol - previous.volume_sol) / previous.volume_sol) * 100 > 50`. -/
def volumeFlag (previous token : Token) : Bool :=
  jsGt (jsMul100 (jsDiv (token.volume_sol - previous.volume_sol)
    previous.volume_sol)) 50

/-- Result of one `detectChanges` call, including the detector's mutated
`previousTokens` state. -/
structure DetectResult where
  priceChanges : List Token
  volumeSpikes : List Token
  previousTokens : AListM Token
deriving DecidableEq, Repr

/-- The loop of `detectChanges`: for each current token in order, look
up the evolving `previousTokens` map under the raw (not lower-cased)
address, push the token onto each flagged list, then unconditionally
overwrite the map entry. -/
def detectGo (previousTokens : AListM Token) : List Token → DetectResult
  | [] => ⟨[], [], previousTokens⟩
  | token :: rest =>
      let pc := match mapGet previousTokens token.token_address with
        | some previous => priceFlag previous token
        | none => false
      let vc := match mapGet previousTokens token.token_address with
        | some previous => volumeFlag previous token
        | none => false
      let next := detectGo (mapSet previousTokens token.token_address token) rest
      ⟨(if pc then [token] else []) ++ next.priceChanges,
       (if vc then [token] else []) ++ next.volumeSpikes,
       next.previousTokens⟩

/-- `Aggregator.detectChanges`, with the instance field `previousTokens`
passed explicitly as state. -/
def detectChanges (previousTokens : AListM Token) (currentTokens : List Token) :
    DetectResult :=
  detectGo previousTokens currentTokens

/-- The flag a token receives against an optional baseline (no baseline:
never flagged). -/
def flagOpt (f : Token → Token → Bool) (o : Option Token) (t : Token) : Bool :=
  match o with
  | some p => f p t
  | none => false

/-- Baseline record with price 100 and volume 100 under key `"AAA"`. -/
def prevTok : Token :=
  { baseTok with token_address := "AAA", price_sol := 100, volume_sol := 100 }

/-- Current record with price 106 and volume 151 (both strictly over
the 5 percent and 50 percent thresholds against `prevTok`). -/
def curTok : Token :=
  { baseTok with token_address := "AAA", price_sol := 106, volume_sol := 151 }

/-- Current record with price 105 and volume 150: exactly 5 percent and
50 percent against `prevTok`, on the exclusive boundary. -/
def boundTok : Token :=
  { baseTok with token_address := "AAA", price_sol := 105, volume_sol := 150 }

/-- Baseline record whose price and volume are both zero. -/
def zeroPrevTok : Token := { baseTok with token_address := "AAA" }

/-- Current record with non-zero price and volume. -/
def oneTok : Token :=
  { baseTok with token_address := "AAA", price_sol := 1, volume_sol := 1 }

/-- Current record with negative price and volume deltas from zero. -/
def negTok : Token :=
  { baseTok with token_address := "AAA", price_sol := -1, volume_sol := -1 }

/-- Record under key `"AAA"` used for the detector-state claims. -/
def tokA : Token := { baseTok with token_address := "AAA", price_sol := 1 }

/-- Record under key `"BBB"` used for the detector-state claims. -/
def tokB : Token := { baseTok with token_address := "BBB", price_sol := 2 }

/-- Outcome of one attempt of the wrapped call: success, or a failure
classified by `isRetryableError`. -/
inductive AttemptResult where
  | success
  | failure (retryable : Bool)
deriving DecidableEq, Repr

/-- `retryWithBackoff`, embedded over an oracle `attempts` giving the
outcome of each successive attempt. Returns the list of sleep delays in
order, whether the call succeeded, and the provider's `retryCount` field
after the call (reset to 0 only on success; left at its incremented
value when the call throws). A failure with `retries = 0` or a
non-retryable failure rethrows immediately with no further sleep. -/
def retryWithBackoff (attempts : ℕ → AttemptResult) :
    ℕ → ℕ → ℕ → List ℕ × Bool × ℕ
  | attempt, retryCount, retries =>
    match attempts attempt, retries with
    | .success, _ => ([], true, 0)
    | .failure _, 0 => ([], false, retryCount)
    | .failure false, _ + 1 => ([], false, retryCount)
    | .failure true, n + 1 =>
        let delay := min (rateLimit_baseDelay * 2 ^ retryCount) rateLimit_maxDelay
        let r := retryWithBackoff attempts (attempt + 1) (retryCount + 1) n
        (delay :: r.1, r.2.1, r.2.2)

/-- The adapter boundary of `fetchTokens`: a successful retried call
yields its payload, a throw is caught and becomes an empty list; the
observed sleep delays are returned alongside. -/
def fetchWithRetry (attempts : ℕ → AttemptResult) (payload : List Token) :
    List Token × List ℕ :=
  let r := retryWithBackoff attempts 0 0 rateLimit_maxRetries
  (if r.2.1 then payload else [], r.1)

/-- `FilterOptions` from `src/backend/src/types`. `sortBy` is modelled
as an arbitrary optional string because the route casts the raw query
string without validation; `limit` as an optional integer (`none` for
unset). -/
structure FilterOptions where
  period : Option String := none
  sortBy : Option String := none
  limit : Option Int := none
  cursor : Option String := none
  skipCache : Bool := false
deriving Repr

/-- Stable insertion of `x` into a sorted prefix: `strictBefore x y`
when the JS comparator orders `x` strictly before `y`; ties keep
insertion (original) order, as ECMA-262 requires sort stability. -/
def insertSorted (strictBefore : Token → Token → Bool) (x : Token) :
    List Token → List Token
  | [] => [x]
  | y :: ys => if strictBefore x y then x :: y :: ys else y :: insertSorted strictBefore x ys

/-- Stable comparator sort, the embedding of `Array.prototype.sort` with
a JS comparator (the algorithm is unspecified by ECMA-262; stability is
required, so any stable sort is a faithful model). -/
def stableSortBy (strictBefore : Token → Token → Bool) (tokens : List Token) :
    List Token :=
  tokens.foldl (fun acc x => insertSorted strictBefore x acc) []

/-- `Aggregator.sortTokens`: copy the list, then sort descending by the
selected key; the `default` branch of the switch sorts by volume. The
comparator `(a, b) => b.k - a.k` places `a` strictly before `b` exactly
when `b.k < a.k`. -/
def sortTokens (tokens : List Token) (sortBy : String) : List Token :=
  match sortBy with
  | "volume" => stableSortBy (fun a b => decide (b.volume_sol < a.volume_sol)) tokens
  | "price_change" =>
      stableSortBy (fun a b => decide (b.price_1hr_change < a.price_1hr_change)) tokens
  | "market_cap" =>
      stableSortBy (fun a b => decide (b.market_cap_sol < a.market_cap_sol)) tokens
  | _ => stableSortBy (fun a b => decide (b.volume_sol < a.volume_sol)) tokens

/-- Variant of `sortTokens` with the `default` branch replaced by a
no-op. `applyFiltersAndSort` built on it behaves identically to the real
one exactly where the `default` branch is unreachable. -/
def sortTokensND (tokens : List Token) (sortBy : String) : List Token :=
  match sortBy with
  | "volume" => stableSortBy (fun a b => decide (b.volume_sol < a.volume_sol)) tokens
  | "price_change" =>
      stableSortBy (fun a b => decide (b.price_1hr_change < a.price_1hr_change)) tokens
  | "market_cap" =>
      stableSortBy (fun a b => decide (b.market_cap_sol < a.market_cap_sol)) tokens
  | _ => tokens

/-- JS `array.slice(0, endIdx)`: a negative end counts back from the end
of the array. -/
def jsSlice (tokens : List Token) (endIdx : Int) : List Token :=
  if endIdx < 0 then tokens.take ((tokens.length : Int) + endIdx).toNat
  else tokens.take endIdx.toNat

/-- The sorting phase of `applyFiltersAndSort`: the period filter is a
no-op, and `sortTokens` runs only for a truthy (set, non-empty)
`options.sortBy`. -/
def sortPhase (tokens : List Token) (options : FilterOptions) : List Token :=
  match options.sortBy with
  | some s => if s ≠ "" then sortTokens tokens s else tokens
  | none => tokens

/-- Same phase over the default-branch-stripped `sortTokensND`. -/
def sortPhaseND (tokens : List Token) (options : FilterOptions) : List Token :=
  match options.sortBy with
  | some s => if s ≠ "" then sortTokensND tokens s else tokens
  | none => tokens

/-- `Math.min(options.limit || defaultLimit, maxLimit)`: an unset limit
and a limit of 0 (both falsy) fall back to the default of 25; the
result is capped above at 50 but not below. -/
def effectiveLimit (limit : Option Int) : Int :=
  min
    (match limit with
      | some l => if l = 0 then pagination_defaultLimit else l
      | none => pagination_defaultLimit)
    pagination_maxLimit

/-- `Aggregator.applyFiltersAndSort`: sort phase, then
`filtered.slice(0, limit)`. -/
def applyFiltersAndSort (tokens : List Token) (options : FilterOptions) : List Token :=
  jsSlice (sortPhase tokens options) (effectiveLimit options.limit)

/-- `applyFiltersAndSort` over the default-branch-stripped sorter. -/
def applyFiltersAndSortND (tokens : List Token) (options : FilterOptions) : List Token :=
  jsSlice (sortPhaseND tokens options) (effectiveLimit options.limit)

/-- The `/tokens` route's option construction: raw query strings are
cast, never validated, so any `sortBy` string reaches the Aggregator;
`limit` defaults to the configured default when absent. -/
def parseOptions (periodQ sortByQ : Option String) (limitQ : Option Int) :
    FilterOptions :=
  { period := periodQ
    sortBy := sortByQ
    limit := some (limitQ.getD pagination_defaultLimit)
    cursor := none }

/-- Third address, for three-element limit examples. -/
def tokC : Token := { baseTok with token_address := "CCC", price_sol := 3 }

/-- Low-volume record, listed first in the stored snapshot order. -/
def lowVolTok : Token := { baseTok with token_address := "LLL", volume_sol := 1 }

/-- High-volume record, listed second in the stored snapshot order. -/
def highVolTok : Token := { baseTok with token_address := "HHH", volume_sol := 2 }

/-- `CacheService.get`: a disconnected client short-circuits to a miss;
a throwing client operation (or a JSON payload that fails to parse) is
caught and degrades to a miss; otherwise the stored snapshot (with its
ttl) is returned. The embedding is a total function: no failure
propagates past the service boundary. -/
def cacheGet (isConnected opFails : Bool) (store : AListM (ℕ × List Token))
    (key : String) : Option (List Token) :=
  if isConnected = false then none
  else if opFails then none
  else (mapGet store key).map Prod.snd

/-- `CacheService.set` (`setex(key, ttl, json)`): disconnected or
throwing operations leave the store untouched and return normally. -/
def cacheSet (isConnected opFails : Bool) (store : AListM (ℕ × List Token))
    (key : String) (value : List Token) (ttl : ℕ) : AListM (ℕ × List Token) :=
  if isConnected = false then store
  else if opFails then store
  else mapSet store key (ttl, value)

/-- `CacheService.delete` (`del(key)`): disconnected or throwing
operations leave the store untouched and return normally. -/
def cacheDelete (isConnected opFails : Bool) (store : AListM (ℕ × List Token))
    (key : String) : AListM (ℕ × List Token) :=
  if isConnected = false then store
  else if opFails then store
  else mapDelete store key


@[simp] theorem mapGet_nil {α : Type} (key : String) :
    mapGet ([] : AListM α) key = none := rfl

theorem mapGet_mapSet_self {α : Type} (m : AListM α) (key : String) (value : α) :
    mapGet (mapSet m key value) key = some value := by
  induction m with
  | nil => simp [mapSet, mapGet]
  | cons e rest ih =>
      obtain ⟨k, v⟩ := e
      by_cases h : k = key
      · simp [mapSet, h, mapGet]
      · simp [mapSet, h, mapGet, ih]

theorem mapGet_mapSet_ne {α : Type} (m : AListM α) (key key' : String) (value : α)
    (h : key' ≠ key) : mapGet (mapSet m key value) key' = mapGet m key' := by
  induction m with
  | nil => simp [mapSet, mapGet, Ne.symm h]
  | cons e rest ih =>
      obtain ⟨k, v⟩ := e
      by_cases hk : k = key
      · subst hk
        have hne : k ≠ key' := fun hh => h hh.symm
        simp [mapSet, mapGet, hne]
      · by_cases hk' : k = key'
        · subst hk'
          simp [mapSet, hk, mapGet]
        · simp [mapSet, hk, mapGet, hk', ih]

theorem mapKeys_mapSet {α : Type} (m : AListM α) (key : String) (value : α) :
    mapKeys (mapSet m key value) =
      if key ∈ mapKeys m then mapKeys m else mapKeys m ++ [key] := by
  induction m with
  | nil => simp [mapSet, mapKeys]
  | cons e rest ih =>
      obtain ⟨k, v⟩ := e
      by_cases h : k = key
      · simp [mapSet, h, mapKeys]
      · simp only [mapSet, if_neg h, mapKeys, List.map_cons, List.mem_cons]
        have hne : ¬ key = k := fun hh => h hh.symm
        simp only [mapKeys] at ih
        rw [ih]
        by_cases hmem : key ∈ rest.map Prod.fst
        · simp [hmem, hne]
        · simp [hmem, hne]

theorem mapKeys_nodup_mapSet {α : Type} (m : AListM α) (key : String) (value : α)
    (h : (mapKeys m).Nodup) : (mapKeys (mapSet m key value)).Nodup := by
  rw [mapKeys_mapSet]
  by_cases hmem : key ∈ mapKeys m
  · simpa [hmem] using h
  · simp only [if_neg hmem]
    simpa [List.nodup_append, hmem] using h

theorem mapGet_eq_some_of_mem {α : Type} (m : AListM α) (key : String) (value : α)
    (hnd : (mapKeys m).Nodup) (hmem : (key, value) ∈ m) :
    mapGet m key = some value := by
  induction m with
  | nil => cases hmem
  | cons e rest ih =>
      obtain ⟨k, v⟩ := e
      simp only [mapKeys, List.map_cons, List.nodup_cons] at hnd
      rcases List.mem_cons.mp hmem with h | h
      · simp only [Prod.mk.injEq] at h
        obtain ⟨hk, hv⟩ := h
        subst hk
        subst hv
        simp [mapGet]
      · have hkne : k ≠ key := by
          intro hk
          subst hk
          exact hnd.1 (by simpa [mapKeys] using List.mem_map_of_mem Prod.fst h)
        simp [mapGet, hkne, ih hnd.2 h]

theorem mem_of_mapGet_eq_some {α : Type} (m : AListM α) (key : String) (value : α)
    (h : mapGet m key = some value) : (key, value) ∈ m := by
  induction m with
  | nil => simp [mapGet] at h
  | cons e rest ih =>
      obtain ⟨k, v⟩ := e
      by_cases hk : k = key
      · subst hk
        simp only [mapGet, if_true, eq_self_iff_true, Option.some.injEq] at h
        subst h
        exact List.mem_cons_self _ _
      · simp only [mapGet, if_neg hk] at h
        exact List.mem_cons_of_mem _ (ih h)

theorem mapGet_isSome_mapSet {α : Type} (m : AListM α) (key key' : String) (value : α)
    (h : (mapGet m key').isSome) : (mapGet (mapSet m key value) key').isSome := by
  by_cases hk : key' = key
  · subst hk
    simp [mapGet_mapSet_self]
  · rwa [mapGet_mapSet_ne _ _ _ _ hk]

/-! ### Configuration (`src/backend/src/config/index.ts`) -/

theorem mem_mapSet {α : Type} (m : AListM α) (k : String) (v : α) :
    ∀ e ∈ mapSet m k v, e ∈ m ∨ e = (k, v) := by
  induction m with
  | nil => simp [mapSet]
  | cons hd rest ih =>
      obtain ⟨k', v'⟩ := hd
      by_cases h : k' = k
      · intro e he
        simp only [mapSet, if_pos h] at he
        rcases List.mem_cons.mp he with h1 | h1
        · exact Or.inr h1
        · exact Or.inl (List.mem_cons_of_mem _ h1)
      · intro e he
        simp only [mapSet, if_neg h] at he
        rcases List.mem_cons.mp he with h1 | h1
        · exact Or.inl (h1 ▸ List.mem_cons_self _ _)
        · rcases ih e h1 with h2 | h2
          · exact Or.inl (List.mem_cons_of_mem _ h2)
          · exact Or.inr h2

theorem goodMap_mapSet (m : AListM Token) (t : Token) (hval : t.token_address ≠ "")
    (hgood : goodMap m) : goodMap (mapSet m (lowkey t) t) := by
  refine ⟨mapKeys_nodup_mapSet _ _ _ hgood.1, ?_⟩
  intro e he
  rcases mem_mapSet _ _ _ e he with h | h
  · exact hgood.2 e h
  · subst h
    exact ⟨hval, rfl⟩

theorem goodMap_dexInsert (m : AListM Token) (t : Token) (hgood : goodMap m) :
    goodMap (dexInsert m t) := by
  unfold dexInsert
  by_cases h : t.token_address ≠ ""
  · simpa [h] using goodMap_mapSet m t h hgood
  · simpa [h] using hgood

theorem goodMap_jupStep (m : AListM Token) (t : Token) (hgood : goodMap m) :
    goodMap (jupStep m t) := by
  unfold jupStep
  by_cases h : t.token_address = ""
  · simpa [h] using hgood
  · simp only [if_neg h]
    cases hget : mapGet m (strLower t.token_address) with
    | none =>
        have : lowkey t = strLower t.token_address := rfl
        simpa using goodMap_mapSet m t h hgood
    | some existing =>
        have hmem := mem_of_mapGet_eq_some m _ _ hget
        have hkey := hgood.2 _ hmem
        refine ⟨mapKeys_nodup_mapSet _ _ _ hgood.1, ?_⟩
        intro e he
        rcases mem_mapSet _ _ _ e he with h1 | h1
        · exact hgood.2 e h1
        · subst h1
          refine ⟨hkey.1, ?_⟩
          have : lowkey (mergeRec existing t) = lowkey existing := rfl
          rw [this, ← hkey.2]

theorem goodMap_foldl_dexInsert (dexTokens : List Token) (m0 : AListM Token)
    (hgood : goodMap m0) : goodMap (dexTokens.foldl dexInsert m0) := by
  induction dexTokens generalizing m0 with
  | nil => simpa using hgood
  | cons t rest ih => exact ih _ (goodMap_dexInsert m0 t hgood)

theorem goodMap_foldl_jupStep (jupiterTokens : List Token) (m0 : AListM Token)
    (hgood : goodMap m0) : goodMap (jupiterTokens.foldl jupStep m0) := by
  induction jupiterTokens generalizing m0 with
  | nil => simpa using hgood
  | cons t rest ih => exact ih _ (goodMap_jupStep m0 t hgood)

theorem goodMap_nil : goodMap ([] : AListM Token) := by
  constructor
  · simp [mapKeys]
  · intro e he
    cases he

theorem goodMap_mergeMap (dexTokens jupiterTokens : List Token) :
    goodMap (mergeMap dexTokens jupiterTokens) :=
  goodMap_foldl_jupStep _ _ (goodMap_foldl_dexInsert _ _ goodMap_nil)

/-! Fold-access lemmas: which entry a key holds after each merge loop. -/

theorem foldl_dexInsert_get_of_absent (dexTokens : List Token) (m0 : AListM Token)
    (K : String) (h : ∀ t ∈ dexTokens, t.token_address = "" ∨ lowkey t ≠ K) :
    mapGet (dexTokens.foldl dexInsert m0) K = mapGet m0 K := by
  induction dexTokens generalizing m0 with
  | nil => rfl
  | cons t rest ih =>
      have hstep : mapGet (dexInsert m0 t) K = mapGet m0 K := by
        rcases h t (List.mem_cons_self _ _) with h1 | h1
        · simp [dexInsert, h1]
        · by_cases h2 : t.token_address = ""
          · simp [dexInsert, h2]
          · simp only [dexInsert, if_pos h2]
            exact mapGet_mapSet_ne _ _ _ _ (Ne.symm h1)
      rw [List.foldl_cons, ih _ (fun s hs => h s (List.mem_cons_of_mem _ hs)), hstep]

theorem foldl_jupStep_get_of_absent (jupiterTokens : List Token) (m0 : AListM Token)
    (K : String) (h : ∀ t ∈ jupiterTokens, t.token_address = "" ∨ lowkey t ≠ K) :
    mapGet (jupiterTokens.foldl jupStep m0) K = mapGet m0 K := by
  induction jupiterTokens generalizing m0 with
  | nil => rfl
  | cons t rest ih =>
      have hstep : mapGet (jupStep m0 t) K = mapGet m0 K := by
        rcases h t (List.mem_cons_self _ _) with h1 | h1
        · simp [jupStep, h1]
        · by_cases h2 : t.token_address = ""
          · simp [jupStep, h2]
          · simp only [jupStep, if_neg h2]
            cases hget : mapGet m0 (strLower t.token_address) with
            | none => exact mapGet_mapSet_ne _ _ _ _ (Ne.symm h1)
            | some existing => exact mapGet_mapSet_ne _ _ _ _ (Ne.symm h1)
      rw [List.foldl_cons, ih _ (fun s hs => h s (List.mem_cons_of_mem _ hs)), hstep]

theorem foldl_dexInsert_get_unique (dexTokens : List Token) (m0 : AListM Token)
    (hnd : (adapterKeys dexTokens).Nodup) (td : Token) (hmem : td ∈ dexTokens)
    (hval : td.token_address ≠ "") :
    mapGet (dexTokens.foldl dexInsert m0) (lowkey td) = some td := by
  induction dexTokens generalizing m0 with
  | nil => cases hmem
  | cons t rest ih =>
      have hndrest : (adapterKeys rest).Nodup := by
        unfold adapterKeys at hnd ⊢
        by_cases h : t.token_address ≠ ""
        · rw [List.filter_cons_of_pos (by simpa using h)] at hnd
          exact (List.nodup_cons.mp (by simpa using hnd)).2
        · rwa [List.filter_cons_of_neg (by simpa using h)] at hnd
      by_cases hcase : td ∈ rest
      · exact ih _ hndrest hcase
      · have hteq : t = td := by
          rcases List.mem_cons.mp hmem with h | h
          · exact h.symm
          · exact absurd h hcase
        subst hteq
        have habs : ∀ s ∈ rest, s.token_address = "" ∨ lowkey s ≠ lowkey t := by
          intro s hs
          by_cases hsval : s.token_address = ""
          · exact Or.inl hsval
          · refine Or.inr ?_
            intro hkeq
            unfold adapterKeys at hnd
            rw [List.filter_cons_of_pos (by simpa using hval)] at hnd
            have : lowkey t ∈ (rest.filter (fun s => s.token_address ≠ "")).map lowkey := by
              rw [← hkeq]
              exact List.mem_map_of_mem _ (List.mem_filter.mpr ⟨hs, by simpa using hsval⟩)
            exact (List.nodup_cons.mp (by simpa using hnd)).1 this
        rw [List.foldl_cons, foldl_dexInsert_get_of_absent rest _ _ habs]
        simp only [dexInsert, if_pos hval]
        exact mapGet_mapSet_self _ _ _

theorem foldl_jupStep_get_merged (jupiterTokens : List Token) (m0 : AListM Token)
    (hnd : (adapterKeys jupiterTokens).Nodup) (tj : Token) (hmem : tj ∈ jupiterTokens)
    (hval : tj.token_address ≠ "") (e : Token)
    (hget : mapGet m0 (lowkey tj) = some e) :
    mapGet (jupiterTokens.foldl jupStep m0) (lowkey tj) = some (mergeRec e tj) := by
  induction jupiterTokens generalizing m0 e with
  | nil => cases hmem
  | cons t rest ih =>
      have hndrest : (adapterKeys rest).Nodup := by
        unfold adapterKeys at hnd ⊢
        by_cases h : t.token_address ≠ ""
        · rw [List.filter_cons_of_pos (by simpa using h)] at hnd
          exact (List.nodup_cons.mp (by simpa using hnd)).2
        · rwa [List.filter_cons_of_neg (by simpa using h)] at hnd
      by_cases hcase : t.token_address ≠ "" ∧ lowkey t = lowkey tj
      · have hteq : t = tj := by
          by_contra hne
          have htj : tj ∈ rest := by
            rcases List.mem_cons.mp hmem with h | h
            · exact absurd h.symm hne
            · exact h
          unfold adapterKeys at hnd
          rw [List.filter_cons_of_pos (by simpa using hcase.1)] at hnd
          have : lowkey t ∈ (rest.filter (fun s => s.token_address ≠ "")).map lowkey := by
            rw [hcase.2]
            exact List.mem_map_of_mem _ (List.mem_filter.mpr ⟨htj, by simpa using hval⟩)
          exact (List.nodup_cons.mp (by simpa using hnd)).1 this
        subst hteq
        have habs : ∀ s ∈ rest, s.token_address = "" ∨ lowkey s ≠ lowkey t := by
          intro s hs
          by_cases hsval : s.token_address = ""
          · exact Or.inl hsval
          · refine Or.inr ?_
            intro hkeq
            unfold adapterKeys at hnd
            rw [List.filter_cons_of_pos (by simpa using hval)] at hnd
            have : lowkey t ∈ (rest.filter (fun s => s.token_address ≠ "")).map lowkey := by
              rw [← hkeq]
              exact List.mem_map_of_mem _ (List.mem_filter.mpr ⟨hs, by simpa using hsval⟩)
            exact (List.nodup_cons.mp (by simpa using hnd)).1 this
        rw [List.foldl_cons, foldl_jupStep_get_of_absent rest _ _ habs]
        simp only [jupStep, if_neg (by simpa using hval)]
        have : mapGet m0 (strLower t.token_address) = some e := hget
        rw [this]
        exact mapGet_mapSet_self _ _ _
      · have htne : t ≠ tj := by
          intro h
          subst h
          exact hcase ⟨hval, rfl⟩
        have htj : tj ∈ rest := by
          rcases List.mem_cons.mp hmem with h | h
          · exact absurd h.symm htne
          · exact h
        have hstep : mapGet (jupStep m0 t) (lowkey tj) = some e := by
          by_cases h2 : t.token_address = ""
          · simpa [jupStep, h2] using hget
          · have hkne : lowkey t ≠ lowkey tj := by
              intro h
              exact hcase ⟨h2, h⟩
            simp only [jupStep, if_neg h2]
            cases hget2 : mapGet m0 (strLower t.token_address) with
            | none =>
                show mapGet (mapSet m0 (lowkey t) t) (lowkey tj) = some e
                rw [mapGet_mapSet_ne _ _ _ _ (Ne.symm hkne)]
                exact hget
            | some existing =>
                show mapGet (mapSet m0 (lowkey t) (mergeRec existing t)) (lowkey tj) = some e
                rw [mapGet_mapSet_ne _ _ _ _ (Ne.symm hkne)]
                exact hget
        rw [List.foldl_cons]
        exact ih _ hndrest htj _ hstep

/-! Existence and provenance of merged entries. -/

theorem dexInsert_isSome (m : AListM Token) (t : Token) (K : String)
    (h : (mapGet m K).isSome) : (mapGet (dexInsert m t) K).isSome := by
  unfold dexInsert
  by_cases h2 : t.token_address ≠ ""
  · simp only [if_pos h2]
    exact mapGet_isSome_mapSet _ _ _ _ h
  · simpa [h2] using h

theorem jupStep_isSome (m : AListM Token) (t : Token) (K : String)
    (h : (mapGet m K).isSome) : (mapGet (jupStep m t) K).isSome := by
  unfold jupStep
  by_cases h2 : t.token_address = ""
  · simpa [h2] using h
  · simp only [if_neg h2]
    cases hget : mapGet m (strLower t.token_address) with
    | none => exact mapGet_isSome_mapSet _ _ _ _ h
    | some existing => exact mapGet_isSome_mapSet _ _ _ _ h

theorem foldl_dexInsert_isSome (dexTokens : List Token) (m0 : AListM Token) (K : String)
    (h : (mapGet m0 K).isSome) :
    (mapGet (dexTokens.foldl dexInsert m0) K).isSome := by
  induction dexTokens generalizing m0 with
  | nil => simpa using h
  | cons t rest ih => exact ih _ (dexInsert_isSome m0 t K h)

theorem foldl_jupStep_isSome (jupiterTokens : List Token) (m0 : AListM Token) (K : String)
    (h : (mapGet m0 K).isSome) :
    (mapGet (jupiterTokens.foldl jupStep m0) K).isSome := by
  induction jupiterTokens generalizing m0 with
  | nil => simpa using h
  | cons t rest ih => exact ih _ (jupStep_isSome m0 t K h)

theorem foldl_dexInsert_isSome_of_mem (dexTokens : List Token) (m0 : AListM Token)
    (t : Token) (hmem : t ∈ dexTokens) (hval : t.token_address ≠ "") :
    (mapGet (dexTokens.foldl dexInsert m0) (lowkey t)).isSome := by
  induction dexTokens generalizing m0 with
  | nil => cases hmem
  | cons s rest ih =>
      rcases List.mem_cons.mp hmem with h | h
      · subst h
        refine foldl_dexInsert_isSome rest _ _ ?_
        simp only [dexInsert, if_pos hval]
        show (mapGet (mapSet m0 (lowkey t) t) (lowkey t)).isSome = true
        rw [mapGet_mapSet_self]
        rfl
      · exact ih _ h

theorem foldl_jupStep_isSome_of_mem (jupiterTokens : List Token) (m0 : AListM Token)
    (t : Token) (hmem : t ∈ jupiterTokens) (hval : t.token_address ≠ "") :
    (mapGet (jupiterTokens.foldl jupStep m0) (lowkey t)).isSome := by
  induction jupiterTokens generalizing m0 with
  | nil => cases hmem
  | cons s rest ih =>
      rcases List.mem_cons.mp hmem with h | h
      · subst h
        refine foldl_jupStep_isSome rest _ _ ?_
        simp only [jupStep, if_neg (by simpa using hval)]
        cases hget : mapGet m0 (strLower t.token_address) with
        | none =>
            show (mapGet (mapSet m0 (lowkey t) t) (lowkey t)).isSome = true
            rw [mapGet_mapSet_self]
            rfl
        | some existing =>
            show (mapGet (mapSet m0 (lowkey t) (mergeRec existing t)) (lowkey t)).isSome = true
            rw [mapGet_mapSet_self]
            rfl
      · exact ih _ h

theorem fromInputs_dexInsert (inputs : List Token) (m : AListM Token) (t : Token)
    (ht : t ∈ inputs) (h : fromInputs inputs m) : fromInputs inputs (dexInsert m t) := by
  unfold dexInsert
  by_cases h2 : t.token_address ≠ ""
  · simp only [if_pos h2]
    intro e he
    rcases mem_mapSet _ _ _ e he with h3 | h3
    · exact h e h3
    · subst h3
      exact ⟨t, ht, h2, rfl⟩
  · simpa [h2] using h

theorem fromInputs_jupStep (inputs : List Token) (m : AListM Token) (t : Token)
    (ht : t ∈ inputs) (h : fromInputs inputs m) : fromInputs inputs (jupStep m t) := by
  unfold jupStep
  by_cases h2 : t.token_address = ""
  · simpa [h2] using h
  · simp only [if_neg h2]
    cases hget : mapGet m (strLower t.token_address) with
    | none =>
        intro e he
        rcases mem_mapSet _ _ _ e he with h3 | h3
        · exact h e h3
        · subst h3
          exact ⟨t, ht, h2, rfl⟩
    | some existing =>
        intro e he
        rcases mem_mapSet _ _ _ e he with h3 | h3
        · exact h e h3
        · subst h3
          obtain ⟨s, hs, hsval, haddr⟩ := h _ (mem_of_mapGet_eq_some m _ _ hget)
          exact ⟨s, hs, hsval, haddr⟩

theorem fromInputs_foldl_dexInsert (inputs dexTokens : List Token) (m0 : AListM Token)
    (hsub : ∀ t ∈ dexTokens, t ∈ inputs) (h : fromInputs inputs m0) :
    fromInputs inputs (dexTokens.foldl dexInsert m0) := by
  induction dexTokens generalizing m0 with
  | nil => simpa using h
  | cons t rest ih =>
      exact ih _ (fun s hs => hsub s (List.mem_cons_of_mem _ hs))
        (fromInputs_dexInsert inputs m0 t (hsub t (List.mem_cons_self _ _)) h)

theorem fromInputs_foldl_jupStep (inputs jupiterTokens : List Token) (m0 : AListM Token)
    (hsub : ∀ t ∈ jupiterTokens, t ∈ inputs) (h : fromInputs inputs m0) :
    fromInputs inputs (jupiterTokens.foldl jupStep m0) := by
  induction jupiterTokens generalizing m0 with
  | nil => simpa using h
  | cons t rest ih =>
      exact ih _ (fun s hs => hsub s (List.mem_cons_of_mem _ hs))
        (fromInputs_jupStep inputs m0 t (hsub t (List.mem_cons_self _ _)) h)

theorem fromInputs_mergeMap (dexTokens jupiterTokens : List Token) :
    fromInputs (dexTokens ++ jupiterTokens) (mergeMap dexTokens jupiterTokens) := by
  unfold mergeMap
  refine fromInputs_foldl_jupStep _ _ _
    (fun t ht => List.mem_append.mpr (Or.inr ht)) ?_
  refine fromInputs_foldl_dexInsert _ _ _
    (fun t ht => List.mem_append.mpr (Or.inl ht)) ?_
  intro e he
  cases he

/-! ### Concrete sample records used by witnesses and counterexamples -/

/-- C8: the merged output of `mergeTokens` holds exactly one record per
distinct lower-cased non-empty identity key occurring in the inputs, and
records with an empty identity key contribute nothing (dropped silently,
no error: the embedding is a total function). -/
theorem mergeTokens_keyset_dedup (dexTokens jupiterTokens : List Token) :
    ((mergeTokens dexTokens jupiterTokens).map lowkey).Nodup ∧
    ∀ K : String,
      (∃ m ∈ mergeTokens dexTokens jupiterTokens, lowkey m = K) ↔
      ∃ t ∈ dexTokens ++ jupiterTokens, t.token_address ≠ "" ∧ lowkey t = K := by
  have hgood := goodMap_mergeMap dexTokens jupiterTokens
  constructor
  · have h1 : (mergeTokens dexTokens jupiterTokens).map lowkey
        = (mergeMap dexTokens jupiterTokens).map (fun e => lowkey e.2) := by
      unfold mergeTokens
      rw [List.map_map]
      rfl
    have h2 : (mergeMap dexTokens jupiterTokens).map (fun e => lowkey e.2)
        = mapKeys (mergeMap dexTokens jupiterTokens) := by
      unfold mapKeys
      refine List.map_congr_left ?_
      intro e he
      exact ((hgood.2 e he).2).symm
    rw [h1, h2]
    exact hgood.1
  · intro K
    constructor
    · rintro ⟨m, hm, rfl⟩
      obtain ⟨e, he, heq⟩ := List.mem_map.mp hm
      obtain ⟨t, ht, htval, haddr⟩ := fromInputs_mergeMap _ _ e he
      refine ⟨t, ht, htval, ?_⟩
      have : lowkey t = lowkey e.2 := by
        unfold lowkey
        rw [haddr]
      rw [this, heq]
    · rintro ⟨t, ht, htval, rfl⟩
      have hsome : (mapGet (mergeMap dexTokens jupiterTokens) (lowkey t)).isSome := by
        unfold mergeMap
        rcases List.mem_append.mp ht with h | h
        · exact foldl_jupStep_isSome _ _ _ (foldl_dexInsert_isSome_of_mem _ _ t h htval)
        · exact foldl_jupStep_isSome_of_mem _ _ t h htval
      obtain ⟨v, hv⟩ := Option.isSome_iff_exists.mp hsome
      have hmem := mem_of_mapGet_eq_some _ _ _ hv
      refine ⟨v, List.mem_map.mpr ⟨(lowkey t, v), hmem, rfl⟩, ?_⟩
      exact ((hgood.2 _ hmem).2).symm

/-- C1: priority law of merge. For adapter outputs deduplicated by
identity key (the adapter contract) whose DexScreener records carry
`sources = ["DexScreener"]` (as `transformToToken` produces), a key
present in both inputs yields a unique merged record whose price, market
cap, liquidity and change percentages are the DexScreener values, whose
volume is the maximum of the two volumes, and whose sources list holds
each source name exactly once. -/
theorem mergeTokens_priority_law
    (dexTokens jupiterTokens : List Token) (K : String)
    (hdexnd : (adapterKeys dexTokens).Nodup)
    (hjupnd : (adapterKeys jupiterTokens).Nodup)
    (td : Token) (htd : td ∈ dexTokens) (htdval : td.token_address ≠ "")
    (htdkey : lowkey td = K) (htdsrc : td.sources = ["DexScreener"])
    (tj : Token) (htj : tj ∈ jupiterTokens) (htjval : tj.token_address ≠ "")
    (htjkey : lowkey tj = K) :
    ∃ m ∈ mergeTokens dexTokens jupiterTokens,
      lowkey m = K ∧
      m.price_sol = td.price_sol ∧
      m.market_cap_sol = td.market_cap_sol ∧
      m.liquidity_sol = td.liquidity_sol ∧
      m.price_1hr_change = td.price_1hr_change ∧
      m.price_24hr_change = td.price_24hr_change ∧
      m.volume_sol = max td.volume_sol tj.volume_sol ∧
      m.sources.count "DexScreener" = 1 ∧
      m.sources.count "Jupiter" = 1 ∧
      ∀ m2 ∈ mergeTokens dexTokens jupiterTokens, lowkey m2 = K → m2 = m := by
  have hget1 : mapGet (dexTokens.foldl dexInsert []) (lowkey tj) = some td := by
    rw [htjkey, ← htdkey]
    exact foldl_dexInsert_get_unique dexTokens [] hdexnd td htd htdval
  have hget2 : mapGet (mergeMap dexTokens jupiterTokens) K = some (mergeRec td tj) := by
    unfold mergeMap
    rw [← htjkey]
    exact foldl_jupStep_get_merged jupiterTokens _ hjupnd tj htj htjval td hget1
  have hgood := goodMap_mergeMap dexTokens jupiterTokens
  have hmemmap := mem_of_mapGet_eq_some _ _ _ hget2
  refine ⟨mergeRec td tj,
    List.mem_map.mpr ⟨(K, mergeRec td tj), hmemmap, rfl⟩,
    (hgood.2 _ hmemmap).2.symm, rfl, rfl, rfl, rfl, rfl, rfl, ?_, ?_, ?_⟩
  · show (td.sources ++ ["Jupiter"]).count "DexScreener" = 1
    rw [htdsrc]
    decide
  · show (td.sources ++ ["Jupiter"]).count "Jupiter" = 1
    rw [htdsrc]
    decide
  · intro m2 hm2 hk2
    obtain ⟨e, he, heq⟩ := List.mem_map.mp hm2
    have hkeyK : e.1 = K := by
      rw [(hgood.2 e he).2]
      show lowkey e.2 = K
      rw [heq, hk2]
    have hgete : mapGet (mergeMap dexTokens jupiterTokens) e.1 = some e.2 :=
      mapGet_eq_some_of_mem _ _ _ hgood.1 (by
        have : (e.1, e.2) = e := rfl
        rw [this]
        exact he)
    rw [hkeyK, hget2] at hgete
    rw [← heq]
    exact (Option.some.inj hgete).symm

/-! ### Re-merge behaviour (claim on idempotence of merge) -/

theorem mapSet_append_of_not_mem {α : Type} (m : AListM α) (k : String) (v : α)
    (h : k ∉ mapKeys m) : mapSet m k v = m ++ [(k, v)] := by
  induction m with
  | nil => rfl
  | cons e rest ih =>
      obtain ⟨k', v'⟩ := e
      simp only [mapKeys, List.map_cons, List.mem_cons] at h
      push_neg at h
      simp only [mapSet, if_neg (fun hh : k' = k => h.1 hh.symm), List.cons_append,
        List.cons.injEq, true_and]
      exact ih (by simpa [mapKeys] using h.2)

theorem foldl_dexInsert_rebuild (m : AListM Token) (m0 : AListM Token)
    (hgood : ∀ e ∈ m, e.2.token_address ≠ "" ∧ e.1 = lowkey e.2)
    (hnd : (mapKeys m).Nodup)
    (hdisj : ∀ k ∈ mapKeys m, k ∉ mapKeys m0) :
    (m.map Prod.snd).foldl dexInsert m0 = m0 ++ m := by
  induction m generalizing m0 with
  | nil => simp
  | cons e rest ih =>
      obtain ⟨k, v⟩ := e
      obtain ⟨hval, hkey⟩ := hgood _ (List.mem_cons_self _ _)
      have hkmem : k ∈ mapKeys ((k, v) :: rest) := by simp [mapKeys]
      have hstep : dexInsert m0 v = m0 ++ [(k, v)] := by
        simp only [dexInsert, if_pos hval]
        have : strLower v.token_address = k := hkey.symm
        rw [this]
        exact mapSet_append_of_not_mem m0 k v (hdisj k hkmem)
      have hndrest : (mapKeys rest).Nodup :=
        (List.nodup_cons.mp (by simpa [mapKeys] using hnd)).2
      have hknotrest : k ∉ mapKeys rest :=
        (List.nodup_cons.mp (by simpa [mapKeys] using hnd)).1
      have hdisj2 : ∀ k2 ∈ mapKeys rest, k2 ∉ mapKeys (m0 ++ [(k, v)]) := by
        intro k2 hk2
        have hk2ne : k2 ≠ k := fun hh => hknotrest (hh ▸ hk2)
        have hk2m : k2 ∈ mapKeys ((k, v) :: rest) := by
          simp only [mapKeys, List.map_cons]
          exact List.mem_cons_of_mem _ hk2
        have hnotm0 : k2 ∉ mapKeys m0 := hdisj k2 hk2m
        simp only [mapKeys, List.map_append, List.mem_append]
        rintro (h1 | h1)
        · exact hnotm0 h1
        · simp only [List.map_cons, List.map_nil, List.mem_singleton] at h1
          exact hk2ne h1
      simp only [List.map_cons, List.foldl_cons, hstep]
      rw [ih (m0 ++ [(k, v)]) (fun e he => hgood e (List.mem_cons_of_mem _ he))
        hndrest hdisj2]
      simp

/-- Rebuilding the map from the output of a previous merge restores the
same map: the first loop of a re-merge is the identity on a merged map. -/
theorem mergeMap_rebuild (dexTokens jupiterTokens : List Token) :
    (mergeTokens dexTokens jupiterTokens).foldl dexInsert [] =
      mergeMap dexTokens jupiterTokens := by
  have hgood := goodMap_mergeMap dexTokens jupiterTokens
  have := foldl_dexInsert_rebuild (mergeMap dexTokens jupiterTokens) []
    hgood.2 hgood.1 (by intro k hk; simp [mapKeys])
  simpa [mergeTokens] using this

theorem mapSet_map_projES (m : AListM Token) (k : String) (v e : Token)
    (hget : mapGet m k = some e) (h : eraseSources v = eraseSources e) :
    (mapSet m k v).map projES = m.map projES := by
  induction m with
  | nil => simp [mapGet] at hget
  | cons hd rest ih =>
      obtain ⟨k', v'⟩ := hd
      by_cases hk : k' = k
      · subst hk
        simp only [mapGet, if_true, eq_self_iff_true, Option.some.injEq] at hget
        subst hget
        simp only [mapSet, if_true, eq_self_iff_true, List.map_cons, projES, h]
      · simp only [mapGet, if_neg hk] at hget
        simp only [mapSet, if_neg hk, List.map_cons, List.cons.injEq, true_and]
        exact ih hget

theorem jupStep_volume_mono (m : AListM Token) (b : Token) (K : String) (e : Token)
    (hget : mapGet m K = some e) :
    ∃ e2, mapGet (jupStep m b) K = some e2 ∧ e.volume_sol ≤ e2.volume_sol := by
  unfold jupStep
  by_cases h2 : b.token_address = ""
  · exact ⟨e, by simpa [h2] using hget, le_refl _⟩
  · simp only [if_neg h2]
    by_cases hk : K = strLower b.token_address
    · subst hk
      rw [hget]
      refine ⟨mergeRec e b, mapGet_mapSet_self _ _ _, ?_⟩
      exact le_max_left _ _
    · cases hget2 : mapGet m (strLower b.token_address) with
      | none =>
          refine ⟨e, ?_, le_refl _⟩
          rw [mapGet_mapSet_ne _ _ _ _ hk]
          exact hget
      | some existing =>
          refine ⟨e, ?_, le_refl _⟩
          rw [mapGet_mapSet_ne _ _ _ _ hk]
          exact hget

theorem foldl_jupStep_volume_mono (jupiterTokens : List Token) (m0 : AListM Token)
    (K : String) (e : Token) (hget : mapGet m0 K = some e) :
    ∃ e2, mapGet (jupiterTokens.foldl jupStep m0) K = some e2 ∧
      e.volume_sol ≤ e2.volume_sol := by
  induction jupiterTokens generalizing m0 e with
  | nil => exact ⟨e, hget, le_refl _⟩
  | cons b rest ih =>
      obtain ⟨e1, hget1, hle1⟩ := jupStep_volume_mono m0 b K e hget
      obtain ⟨e2, hget2, hle2⟩ := ih _ _ hget1
      exact ⟨e2, hget2, le_trans hle1 hle2⟩

theorem foldl_jupStep_covers (jupiterTokens : List Token) (m0 : AListM Token)
    (b : Token) (hb : b ∈ jupiterTokens) (hval : b.token_address ≠ "") :
    ∃ e, mapGet (jupiterTokens.foldl jupStep m0) (lowkey b) = some e ∧
      b.volume_sol ≤ e.volume_sol := by
  induction jupiterTokens generalizing m0 with
  | nil => cases hb
  | cons s rest ih =>
      rcases List.mem_cons.mp hb with h | h
      · subst h
        have hstep : ∃ e1, mapGet (jupStep m0 b) (lowkey b) = some e1 ∧
            b.volume_sol ≤ e1.volume_sol := by
          simp only [jupStep, if_neg (by simpa using hval)]
          cases hget : mapGet m0 (strLower b.token_address) with
          | none =>
              exact ⟨b, by
                show mapGet (mapSet m0 (lowkey b) b) (lowkey b) = some b
                exact mapGet_mapSet_self _ _ _, le_refl _⟩
          | some existing =>
              refine ⟨mergeRec existing b, ?_, le_max_right _ _⟩
              show mapGet (mapSet m0 (lowkey b) (mergeRec existing b)) (lowkey b)
                = some (mergeRec existing b)
              exact mapGet_mapSet_self _ _ _
        obtain ⟨e1, hget1, hle1⟩ := hstep
        obtain ⟨e2, hget2, hle2⟩ := foldl_jupStep_volume_mono rest _ _ _ hget1
        exact ⟨e2, hget2, le_trans hle1 hle2⟩
      · exact ih _ h

theorem foldl_jupStep_projES (jupiterTokens : List Token) (m0 : AListM Token)
    (hinv : ∀ b ∈ jupiterTokens, b.token_address ≠ "" →
      ∃ e, mapGet m0 (lowkey b) = some e ∧ b.volume_sol ≤ e.volume_sol) :
    (jupiterTokens.foldl jupStep m0).map projES = m0.map projES := by
  induction jupiterTokens generalizing m0 with
  | nil => rfl
  | cons b rest ih =>
      by_cases hval : b.token_address = ""
      · rw [List.foldl_cons]
        have hstep : jupStep m0 b = m0 := by simp [jupStep, hval]
        rw [hstep]
        exact ih _ (fun b2 hb2 => hinv b2 (List.mem_cons_of_mem _ hb2))
      · obtain ⟨e, hget, hvol⟩ := hinv b (List.mem_cons_self _ _) hval
        have hstep : jupStep m0 b = mapSet m0 (lowkey b) (mergeRec e b) := by
          simp only [jupStep, if_neg hval]
          show (match mapGet m0 (lowkey b) with
            | some existing => mapSet m0 (lowkey b) (mergeRec existing b)
            | none => mapSet m0 (lowkey b) b) = mapSet m0 (lowkey b) (mergeRec e b)
          rw [hget]
        have heq : eraseSources (mergeRec e b) = eraseSources e := by
          simp [eraseSources, mergeRec, max_eq_left hvol]
        rw [List.foldl_cons, hstep]
        rw [ih _ ?_]
        · exact mapSet_map_projES m0 (lowkey b) _ e hget heq
        · intro b2 hb2 hval2
          obtain ⟨e2, hget2, hvol2⟩ := hinv b2 (List.mem_cons_of_mem _ hb2) hval2
          by_cases hk : lowkey b2 = lowkey b
          · refine ⟨mergeRec e b, ?_, ?_⟩
            · rw [hk]
              exact mapGet_mapSet_self _ _ _
            · have : e2 = e := by
                rw [hk] at hget2
                exact Option.some.inj (hget2.symm.trans hget)
              subst this
              calc b2.volume_sol ≤ e2.volume_sol := hvol2
                _ ≤ max e2.volume_sol b.volume_sol := le_max_left _ _
          · refine ⟨e2, ?_, hvol2⟩
            rw [mapGet_mapSet_ne _ _ _ _ hk]
            exact hget2

/-- C2 counterexample: merge is not idempotent as claimed. Re-merging
the result of `merge([], [jupSample])` with `[jupSample]` appends
`"Jupiter"` to the record's `sources` a second time, so the result
changes. -/
theorem mergeTokens_not_idempotent :
    mergeTokens (mergeTokens [] [jupSample]) [jupSample] ≠
      mergeTokens [] [jupSample] := by decide

/-- C2 amended: re-merging the same secondary record set mutates no
field of any record other than `sources` (to which the secondary source
name is appended once more per matching record): with `sources` blanked,
`merge(merge(A, B), B)` equals `merge(A, B)` record for record, in
order. -/
theorem mergeTokens_remerge_stable (dexTokens jupiterTokens : List Token) :
    (mergeTokens (mergeTokens dexTokens jupiterTokens) jupiterTokens).map eraseSources
      = (mergeTokens dexTokens jupiterTokens).map eraseSources := by
  have hrebuild := mergeMap_rebuild dexTokens jupiterTokens
  have hinv : ∀ b ∈ jupiterTokens, b.token_address ≠ "" →
      ∃ e, mapGet (mergeMap dexTokens jupiterTokens) (lowkey b) = some e ∧
        b.volume_sol ≤ e.volume_sol := by
    intro b hb hval
    unfold mergeMap
    exact foldl_jupStep_covers jupiterTokens _ b hb hval
  have hproj := foldl_jupStep_projES jupiterTokens (mergeMap dexTokens jupiterTokens) hinv
  calc (mergeTokens (mergeTokens dexTokens jupiterTokens) jupiterTokens).map eraseSources
      = ((jupiterTokens.foldl jupStep
          ((mergeTokens dexTokens jupiterTokens).foldl dexInsert [])).map
            Prod.snd).map eraseSources := rfl
    _ = ((jupiterTokens.foldl jupStep
          (mergeMap dexTokens jupiterTokens)).map Prod.snd).map eraseSources := by
        rw [hrebuild]
    _ = ((jupiterTokens.foldl jupStep
          (mergeMap dexTokens jupiterTokens)).map projES).map Prod.snd := by
        rw [List.map_map, List.map_map]
        rfl
    _ = ((mergeMap dexTokens jupiterTokens).map projES).map Prod.snd := by
        rw [hproj]
    _ = (mergeTokens dexTokens jupiterTokens).map eraseSources := by
        rw [List.map_map]
        show _ = (mergeTokens dexTokens jupiterTokens).map eraseSources
        unfold mergeTokens
        rw [List.map_map]
        rfl

/-- C1 witness: the priority law evaluated on one DexScreener record and
one Jupiter record sharing identity key `"abc1"`. -/
theorem mergeTokens_priority_law_witness :
    ∃ m ∈ mergeTokens [dexSample] [jupSample],
      lowkey m = "abc1" ∧
      m.price_sol = dexSample.price_sol ∧
      m.market_cap_sol = dexSample.market_cap_sol ∧
      m.liquidity_sol = dexSample.liquidity_sol ∧
      m.price_1hr_change = dexSample.price_1hr_change ∧
      m.price_24hr_change = dexSample.price_24hr_change ∧
      m.volume_sol = max dexSample.volume_sol jupSample.volume_sol ∧
      m.sources.count "DexScreener" = 1 ∧
      m.sources.count "Jupiter" = 1 ∧
      ∀ m2 ∈ mergeTokens [dexSample] [jupSample], lowkey m2 = "abc1" → m2 = m :=
  mergeTokens_priority_law [dexSample] [jupSample] "abc1"
    (by decide) (by decide)
    dexSample (by decide) (by decide) (by decide) (by decide)
    jupSample (by decide) (by decide) (by decide)

/-! ### Change detector (`Aggregator.detectChanges`)

The detector divides by the previous value with no zero guard, so the
embedding models the IEEE-754 special values JS produces there. -/

theorem detectGo_priceChanges_subset (m : AListM Token) (cur : List Token) :
    ∀ t ∈ (detectGo m cur).priceChanges, t ∈ cur := by
  induction cur generalizing m with
  | nil => intro t ht; cases ht
  | cons s rest ih =>
      intro t ht
      simp only [detectGo, List.mem_append] at ht
      rcases ht with h | h
      · rcases Bool.dichotomy (match mapGet m s.token_address with
          | some previous => priceFlag previous s
          | none => false) with hb | hb <;> rw [hb] at h
        · cases h
        · exact List.mem_cons.mpr (Or.inl (List.mem_singleton.mp h))
      · exact List.mem_cons_of_mem _ (ih _ t h)

theorem detectGo_volumeSpikes_subset (m : AListM Token) (cur : List Token) :
    ∀ t ∈ (detectGo m cur).volumeSpikes, t ∈ cur := by
  induction cur generalizing m with
  | nil => intro t ht; cases ht
  | cons s rest ih =>
      intro t ht
      simp only [detectGo, List.mem_append] at ht
      rcases ht with h | h
      · rcases Bool.dichotomy (match mapGet m s.token_address with
          | some previous => volumeFlag previous s
          | none => false) with hb | hb <;> rw [hb] at h
        · cases h
        · exact List.mem_cons.mpr (Or.inl (List.mem_singleton.mp h))
      · exact List.mem_cons_of_mem _ (ih _ t h)

theorem detectGo_cons (m : AListM Token) (s : Token) (rest : List Token) :
    detectGo m (s :: rest) =
      ⟨(if flagOpt priceFlag (mapGet m s.token_address) s then [s] else []) ++
        (detectGo (mapSet m s.token_address s) rest).priceChanges,
       (if flagOpt volumeFlag (mapGet m s.token_address) s then [s] else []) ++
        (detectGo (mapSet m s.token_address s) rest).volumeSpikes,
       (detectGo (mapSet m s.token_address s) rest).previousTokens⟩ := by
  cases hget : mapGet m s.token_address <;> simp [detectGo, flagOpt, hget]

theorem detectGo_mem_priceChanges (m : AListM Token) (cur : List Token)
    (hnd : (cur.map Token.token_address).Nodup) (t : Token) (ht : t ∈ cur) :
    (t ∈ (detectGo m cur).priceChanges ↔
      flagOpt priceFlag (mapGet m t.token_address) t = true) := by
  induction cur generalizing m with
  | nil => cases ht
  | cons s rest ih =>
      simp only [List.map_cons, List.nodup_cons] at hnd
      rw [detectGo_cons]
      rcases List.mem_cons.mp ht with h | h
      · subst h
        have htnotrest : t ∉ rest := fun hmem =>
          hnd.1 (List.mem_map_of_mem Token.token_address hmem)
        have hnotnext : t ∉ (detectGo (mapSet m t.token_address t) rest).priceChanges :=
          fun hmem => htnotrest (detectGo_priceChanges_subset _ _ t hmem)
        rcases Bool.dichotomy (flagOpt priceFlag (mapGet m t.token_address) t) with hb | hb
        · rw [hb]
          simp [hnotnext, hb]
        · rw [hb]
          simp [hb]
      · have htne : t ≠ s := by
          intro hh
          subst hh
          exact hnd.1 (List.mem_map_of_mem Token.token_address h)
        have haddrne : t.token_address ≠ s.token_address := by
          intro hh
          exact hnd.1 (hh ▸ List.mem_map_of_mem Token.token_address h)
        have hrw := mapGet_mapSet_ne m s.token_address t.token_address s haddrne
        rcases Bool.dichotomy (flagOpt priceFlag (mapGet m s.token_address) s) with hb | hb
        · rw [hb]
          simp only [if_false, Bool.false_eq_true, List.nil_append]
          rw [ih _ hnd.2 h, hrw]
        · rw [hb]
          simp only [if_true, List.singleton_append, List.mem_cons]
          rw [ih _ hnd.2 h, hrw]
          simp [htne]

theorem detectGo_mem_volumeSpikes (m : AListM Token) (cur : List Token)
    (hnd : (cur.map Token.token_address).Nodup) (t : Token) (ht : t ∈ cur) :
    (t ∈ (detectGo m cur).volumeSpikes ↔
      flagOpt volumeFlag (mapGet m t.token_address) t = true) := by
  induction cur generalizing m with
  | nil => cases ht
  | cons s rest ih =>
      simp only [List.map_cons, List.nodup_cons] at hnd
      rw [detectGo_cons]
      rcases List.mem_cons.mp ht with h | h
      · subst h
        have htnotrest : t ∉ rest := fun hmem =>
          hnd.1 (List.mem_map_of_mem Token.token_address hmem)
        have hnotnext : t ∉ (detectGo (mapSet m t.token_address t) rest).volumeSpikes :=
          fun hmem => htnotrest (detectGo_volumeSpikes_subset _ _ t hmem)
        rcases Bool.dichotomy (flagOpt volumeFlag (mapGet m t.token_address) t) with hb | hb
        · rw [hb]
          simp [hnotnext, hb]
        · rw [hb]
          simp [hb]
      · have htne : t ≠ s := by
          intro hh
          subst hh
          exact hnd.1 (List.mem_map_of_mem Token.token_address h)
        have haddrne : t.token_address ≠ s.token_address := by
          intro hh
          exact hnd.1 (hh ▸ List.mem_map_of_mem Token.token_address h)
        have hrw := mapGet_mapSet_ne m s.token_address t.token_address s haddrne
        rcases Bool.dichotomy (flagOpt volumeFlag (mapGet m s.token_address) s) with hb | hb
        · rw [hb]
          simp only [if_false, Bool.false_eq_true, List.nil_append]
          rw [ih _ hnd.2 h, hrw]
        · rw [hb]
          simp only [if_true, List.singleton_append, List.mem_cons]
          rw [ih _ hnd.2 h, hrw]
          simp [htne]

theorem detectGo_previous_untouched (m : AListM Token) (cur : List Token) (k : String)
    (h : ∀ t ∈ cur, t.token_address ≠ k) :
    mapGet (detectGo m cur).previousTokens k = mapGet m k := by
  induction cur generalizing m with
  | nil => rfl
  | cons s rest ih =>
      rw [detectGo_cons]
      show mapGet (detectGo (mapSet m s.token_address s) rest).previousTokens k = _
      rw [ih _ (fun t2 ht2 => h t2 (List.mem_cons_of_mem _ ht2))]
      exact mapGet_mapSet_ne _ _ _ _
        (fun hh => h s (List.mem_cons_self _ _) hh.symm)

theorem detectGo_previous_overwritten (m : AListM Token) (cur : List Token)
    (hnd : (cur.map Token.token_address).Nodup) (t : Token) (ht : t ∈ cur) :
    mapGet (detectGo m cur).previousTokens t.token_address = some t := by
  induction cur generalizing m with
  | nil => cases ht
  | cons s rest ih =>
      simp only [List.map_cons, List.nodup_cons] at hnd
      rw [detectGo_cons]
      show mapGet (detectGo (mapSet m s.token_address s) rest).previousTokens
        t.token_address = some t
      rcases List.mem_cons.mp ht with h | h
      · subst h
        have habs : ∀ t2 ∈ rest, t2.token_address ≠ t.token_address := by
          intro t2 ht2 hh
          exact hnd.1 (hh ▸ List.mem_map_of_mem Token.token_address ht2)
        rw [detectGo_previous_untouched _ _ _ habs]
        exact mapGet_mapSet_self _ _ _
      · exact ih _ hnd.2 h

theorem priceFlag_of_pos (p t : Token) (hp : 0 < p.price_sol) :
    (priceFlag p t = true ↔ |t.price_sol - p.price_sol| / p.price_sol * 100 > 5) := by
  unfold priceFlag
  rw [jsDiv, if_neg (ne_of_gt hp)]
  simp only [jsMul100, jsAbs, jsGt, decide_eq_true_eq]
  have habs : |(t.price_sol - p.price_sol) / p.price_sol * 100|
      = |t.price_sol - p.price_sol| / p.price_sol * 100 := by
    rw [abs_mul, abs_div, abs_of_pos hp]
    norm_num
  rw [habs]

theorem volumeFlag_of_nonzero (p t : Token) (hp : p.volume_sol ≠ 0) :
    (volumeFlag p t = true ↔
      (t.volume_sol - p.volume_sol) / p.volume_sol * 100 > 50) := by
  unfold volumeFlag
  rw [jsDiv, if_neg hp]
  simp [jsMul100, jsGt]

theorem priceFlag_zero_baseline (p t : Token) (hp : p.price_sol = 0) :
    (priceFlag p t = true ↔ t.price_sol ≠ 0) := by
  unfold priceFlag
  rw [hp, sub_zero, jsDiv, if_pos rfl]
  by_cases h1 : 0 < t.price_sol
  · simp [h1, jsMul100, jsAbs, jsGt, ne_of_gt h1]
  · by_cases h2 : t.price_sol < 0
    · simp [h1, h2, jsMul100, jsAbs, jsGt, h2.ne]
    · have h0 : t.price_sol = 0 := le_antisymm (not_lt.mp h1) (not_lt.mp h2)
      simp [h1, h2, jsMul100, jsAbs, jsGt, h0]

theorem volumeFlag_zero_baseline (p t : Token) (hp : p.volume_sol = 0) :
    (volumeFlag p t = true ↔ 0 < t.volume_sol) := by
  unfold volumeFlag
  rw [hp, sub_zero, jsDiv, if_pos rfl]
  by_cases h1 : 0 < t.volume_sol
  · simp [h1, jsMul100, jsGt]
  · by_cases h2 : t.volume_sol < 0
    · simp [h1, h2, jsMul100, jsGt, not_lt_of_gt h2]
    · have h0 : t.volume_sol = 0 := le_antisymm (not_lt.mp h1) (not_lt.mp h2)
      simp [h1, h2, jsMul100, jsGt, h0]

/-! Concrete records for the detector claims. -/

/-- C3: change-detection thresholds are strict. For a current record
with a matching baseline, it is flagged as a price delta iff the
absolute percentage price change strictly exceeds 5, and as a volume
spike iff the percentage volume increase strictly exceeds 50 (baselines
assumed positive for price and non-zero for volume, per the data-model
invariant that numeric fields are non-negative); a record with no
baseline is never flagged. -/
theorem detectChanges_thresholds_strict
    (previousTokens : AListM Token) (currentTokens : List Token)
    (hnd : (currentTokens.map Token.token_address).Nodup)
    (t : Token) (ht : t ∈ currentTokens) :
    (∀ p, mapGet previousTokens t.token_address = some p → 0 < p.price_sol →
      (t ∈ (detectChanges previousTokens currentTokens).priceChanges ↔
        |t.price_sol - p.price_sol| / p.price_sol * 100 > 5)) ∧
    (∀ p, mapGet previousTokens t.token_address = some p → 0 < p.volume_sol →
      (t ∈ (detectChanges previousTokens currentTokens).volumeSpikes ↔
        (t.volume_sol - p.volume_sol) / p.volume_sol * 100 > 50)) ∧
    (mapGet previousTokens t.token_address = none →
      t ∉ (detectChanges previousTokens currentTokens).priceChanges ∧
      t ∉ (detectChanges previousTokens currentTokens).volumeSpikes) := by
  refine ⟨?_, ?_, ?_⟩
  · intro p hget hp
    rw [detectChanges, detectGo_mem_priceChanges _ _ hnd t ht, hget]
    show priceFlag p t = true ↔ _
    exact priceFlag_of_pos p t hp
  · intro p hget hp
    rw [detectChanges, detectGo_mem_volumeSpikes _ _ hnd t ht, hget]
    show volumeFlag p t = true ↔ _
    exact volumeFlag_of_nonzero p t (ne_of_gt hp)
  · intro hget
    constructor
    · rw [detectChanges, detectGo_mem_priceChanges _ _ hnd t ht, hget]
      simp [flagOpt]
    · rw [detectChanges, detectGo_mem_volumeSpikes _ _ hnd t ht, hget]
      simp [flagOpt]

/-- C3 witness: against a baseline of price 100 and volume 100, a
current record at price 106 and volume 151 is flagged on both channels,
and a record exactly on the 5 percent and 50 percent boundaries is
flagged on neither. -/
theorem detectChanges_thresholds_strict_witness :
    (curTok ∈ (detectChanges [("AAA", prevTok)] [curTok]).priceChanges ∧
     curTok ∈ (detectChanges [("AAA", prevTok)] [curTok]).volumeSpikes) ∧
    (boundTok ∉ (detectChanges [("AAA", prevTok)] [boundTok]).priceChanges ∧
     boundTok ∉ (detectChanges [("AAA", prevTok)] [boundTok]).volumeSpikes) := by
  have h := detectChanges_thresholds_strict [("AAA", prevTok)] [curTok]
    (by decide) curTok (List.mem_singleton.mpr rfl)
  have hb := detectChanges_thresholds_strict [("AAA", prevTok)] [boundTok]
    (by decide) boundTok (List.mem_singleton.mpr rfl)
  refine ⟨⟨(h.1 prevTok (by decide) (by decide)).mpr ?_,
           (h.2.1 prevTok (by decide) (by decide)).mpr ?_⟩,
          fun hmem => ?_, fun hmem => ?_⟩
  · show |(106 : ℚ) - 100| / 100 * 100 > 5
    norm_num
  · show ((151 : ℚ) - 100) / 100 * 100 > 50
    norm_num
  · have := (hb.1 prevTok (by decide) (by decide)).mp hmem
    norm_num [boundTok, prevTok, baseTok] at this
  · have := (hb.2.1 prevTok (by decide) (by decide)).mp hmem
    norm_num [boundTok, prevTok, baseTok] at this

/-- C4 counterexample: a zero baseline does not make the record
unflaggable. With `previous.price_sol = 0` and `previous.volume_sol = 0`,
a current record at price 1 and volume 1 IS flagged on both channels
(the JS division by zero yields Infinity, and Infinity exceeds any
threshold), contradicting the claim that a zero baseline never flags. -/
theorem detectChanges_zero_baseline_flags :
    oneTok ∈ (detectChanges [("AAA", zeroPrevTok)] [oneTok]).priceChanges ∧
    oneTok ∈ (detectChanges [("AAA", zeroPrevTok)] [oneTok]).volumeSpikes := by
  have hnd : (([oneTok]).map Token.token_address).Nodup := by decide
  have ht : oneTok ∈ [oneTok] := List.mem_singleton.mpr rfl
  have hget : mapGet [("AAA", zeroPrevTok)] oneTok.token_address
      = some zeroPrevTok := by decide
  constructor
  · rw [detectChanges, detectGo_mem_priceChanges _ _ hnd _ ht, hget]
    show priceFlag zeroPrevTok oneTok = true
    rw [priceFlag_zero_baseline _ _ rfl]
    show (1 : ℚ) ≠ 0
    norm_num
  · rw [detectChanges, detectGo_mem_volumeSpikes _ _ hnd _ ht, hget]
    show volumeFlag zeroPrevTok oneTok = true
    rw [volumeFlag_zero_baseline _ _ rfl]
    show (0 : ℚ) < 1
    norm_num

/-- C4 amended: a zero baseline never raises (the embedding is total,
as is the JS arithmetic, which produces Infinity or NaN instead), but it
does flag: with a zero price baseline the record is flagged as a price
delta iff its current price is non-zero, and with a zero volume baseline
it is flagged as a volume spike iff its current volume is positive; only
a current value of zero (NaN comparison) goes unflagged. -/
theorem detectChanges_zero_baseline
    (previousTokens : AListM Token) (currentTokens : List Token)
    (hnd : (currentTokens.map Token.token_address).Nodup)
    (t : Token) (ht : t ∈ currentTokens) (p : Token)
    (hget : mapGet previousTokens t.token_address = some p) :
    (p.price_sol = 0 →
      (t ∈ (detectChanges previousTokens currentTokens).priceChanges ↔
        t.price_sol ≠ 0)) ∧
    (p.volume_sol = 0 →
      (t ∈ (detectChanges previousTokens currentTokens).volumeSpikes ↔
        0 < t.volume_sol)) := by
  constructor
  · intro hp
    rw [detectChanges, detectGo_mem_priceChanges _ _ hnd t ht, hget]
    show priceFlag p t = true ↔ _
    exact priceFlag_zero_baseline p t hp
  · intro hp
    rw [detectChanges, detectGo_mem_volumeSpikes _ _ hnd t ht, hget]
    show volumeFlag p t = true ↔ _
    exact volumeFlag_zero_baseline p t hp

/-- C4 amended witness: against an all-zero baseline, a record at price
-1 and volume -1 is flagged as a price delta (|-Infinity| = Infinity)
but not as a volume spike (-Infinity is not greater than 50). -/
theorem detectChanges_zero_baseline_witness :
    negTok ∈ (detectChanges [("AAA", zeroPrevTok)] [negTok]).priceChanges ∧
    negTok ∉ (detectChanges [("AAA", zeroPrevTok)] [negTok]).volumeSpikes := by
  have h := detectChanges_zero_baseline [("AAA", zeroPrevTok)] [negTok]
    (by decide) negTok (by decide) zeroPrevTok (by decide)
  refine ⟨(h.1 (by decide)).mpr (by decide), fun hmem => ?_⟩
  exact absurd ((h.2 (by decide)).mp hmem) (by decide)

/-- C5 counterexample: the detector state is NOT pruned to the most
recent snapshot. After `detect([tokA])` followed by `detect([tokB])`,
the retained map still holds the entry for key `"AAA"`, which is absent
from the second snapshot. -/
theorem detectChanges_stale_keys_retained :
    (∀ t ∈ [tokB], t.token_address ≠ "AAA") ∧
    mapGet (detectChanges
      (detectChanges [] [tokA]).previousTokens [tokB]).previousTokens "AAA"
      = some tokA := by decide

/-- C5 amended: after `detect(current)` the retained state maps every
identity key of `current` to its current record (unconditionally
overwritten, flagged or not), while entries whose keys are absent from
`current` are carried over unchanged from before the call rather than
discarded. -/
theorem detectChanges_previous_state
    (previousTokens : AListM Token) (currentTokens : List Token)
    (hnd : (currentTokens.map Token.token_address).Nodup) :
    (∀ t ∈ currentTokens,
      mapGet (detectChanges previousTokens currentTokens).previousTokens
        t.token_address = some t) ∧
    (∀ k : String, (∀ t ∈ currentTokens, t.token_address ≠ k) →
      mapGet (detectChanges previousTokens currentTokens).previousTokens k
        = mapGet previousTokens k) :=
  ⟨fun t ht => detectGo_previous_overwritten _ _ hnd t ht,
   fun k hk => detectGo_previous_untouched _ _ k hk⟩

/-- C5 amended witness: one call over `[tokB]` starting from a state
holding `"AAA"`: the `"BBB"` entry is overwritten with `tokB` and the
`"AAA"` entry is carried over. -/
theorem detectChanges_previous_state_witness :
    mapGet (detectChanges [("AAA", tokA)] [tokB]).previousTokens
      tokB.token_address = some tokB ∧
    mapGet (detectChanges [("AAA", tokA)] [tokB]).previousTokens "AAA"
      = mapGet [("AAA", tokA)] "AAA" := by
  have h := detectChanges_previous_state [("AAA", tokA)] [tokB] (by decide)
  exact ⟨h.1 tokB (by decide), h.2 "AAA" (by decide)⟩

/-! ### Retry policy (`DexScreenerProvider.retryWithBackoff`) -/

/-- C6 counterexample: with the configured `maxRetries = 3`, a call
suffering consecutive retryable failures sleeps only three times
(1000, 2000, 4000 ms) before the fourth failure rethrows, so the claimed
delay sequence 1000, 2000, 4000, 8000 is never observed. -/
theorem retry_backoff_not_four_delays :
    (retryWithBackoff (fun _ => .failure true) 0 0 rateLimit_maxRetries).1
      ≠ [1000, 2000, 4000, 8000] := by decide

/-- C6 amended: under `maxRetries = 3`, a call with retryable failures
throughout sleeps 1000, 2000, 4000 ms, then surfaces at the adapter
boundary as an empty result (never a raised error); the exponent counter
is the provider-level `retryCount`, reset only on success, so a
subsequent exhausted call observes the `min(1000 * 2^n, 10000)`-capped
tail 8000, 10000, 10000. -/
theorem retry_backoff_behaviour (payload : List Token) :
    retryWithBackoff (fun _ => .failure true) 0 0 rateLimit_maxRetries
      = ([1000, 2000, 4000], false, 3) ∧
    fetchWithRetry (fun _ => .failure true) payload = ([], [1000, 2000, 4000]) ∧
    (retryWithBackoff (fun _ => .failure true) 0 3 rateLimit_maxRetries).1
      = [8000, 10000, 10000] := by
  have h : retryWithBackoff (fun _ => .failure true) 0 0 rateLimit_maxRetries
      = ([1000, 2000, 4000], false, 3) := by decide
  refine ⟨h, ?_, by decide⟩
  simp [fetchWithRetry, h]

/-! ### Query projection (`Aggregator.applyFiltersAndSort`, `sortTokens`)
and the token route's option construction. -/

theorem jsSlice_nonneg (tokens : List Token) (endIdx : Int) (h : 0 ≤ endIdx) :
    jsSlice tokens endIdx = tokens.take endIdx.toNat := by
  simp [jsSlice, not_lt.mpr h]

theorem jsSlice_neg (tokens : List Token) (endIdx : Int) (h : endIdx < 0) :
    jsSlice tokens endIdx = tokens.take ((tokens.length : Int) + endIdx).toNat := by
  simp [jsSlice, h]

/-! Concrete records for the query-projection claims. -/

/-- C7 counterexample: a requested limit of -1 is not clamped to 1.
`Math.min(-1, 50) = -1` reaches `slice(0, -1)`, which drops the LAST
record and returns two records, although the claimed effective limit
for this query is 1. -/
theorem limit_not_clamped_to_one :
    applyFiltersAndSort [tokA, tokB, tokC] { limit := some (-1) } = [tokA, tokB] ∧
    ¬ (applyFiltersAndSort [tokA, tokB, tokC] { limit := some (-1) }).length ≤ 1 := by
  decide

/-- C7 amended: the effective limit is clamped only from above. A
requested limit of at least 1 yields the first `min(limit, 50)` records
of the (sorted) snapshot; an unset or zero (falsy) limit yields the
first 25; a negative limit is handed to `slice`, whose negative-end
semantics returns all but the last `|limit|` records. -/
theorem applyFiltersAndSort_limit (tokens : List Token) (options : FilterOptions) :
    (∀ l : Int, options.limit = some l → 1 ≤ l →
      applyFiltersAndSort tokens options
        = (sortPhase tokens options).take (min l.toNat 50)) ∧
    ((options.limit = none ∨ options.limit = some 0) →
      applyFiltersAndSort tokens options = (sortPhase tokens options).take 25) ∧
    (∀ l : Int, options.limit = some l → l < 0 →
      applyFiltersAndSort tokens options
        = (sortPhase tokens options).take
            (((sortPhase tokens options).length : Int) + l).toNat) := by
  refine ⟨?_, ?_, ?_⟩
  · intro l hl h1
    have heff : effectiveLimit options.limit = min l 50 := by
      rw [hl]
      show min (if l = 0 then pagination_defaultLimit else l) pagination_maxLimit = _
      rw [if_neg (by omega), pagination_maxLimit]
    rw [applyFiltersAndSort, heff, jsSlice_nonneg _ _ (by omega)]
    congr 1
    omega
  · intro hl
    have heff : effectiveLimit options.limit = 25 := by
      rcases hl with h | h <;> rw [h] <;> rfl
    rw [applyFiltersAndSort, heff, jsSlice_nonneg _ _ (by omega)]
    rfl
  · intro l hl h1
    have heff : effectiveLimit options.limit = l := by
      rw [hl]
      show min (if l = 0 then pagination_defaultLimit else l) pagination_maxLimit = _
      rw [if_neg (by omega), pagination_maxLimit]
      omega
    rw [applyFiltersAndSort, heff, jsSlice_neg _ _ h1]

/-- C7 amended witness: over three stored records, limit 2 returns the
first two, an unset limit returns all three (take 25), and limit -2
returns all but the last two. -/
theorem applyFiltersAndSort_limit_witness :
    applyFiltersAndSort [tokA, tokB, tokC] { limit := some 2 } = [tokA, tokB] ∧
    applyFiltersAndSort [tokA, tokB, tokC] { limit := none } = [tokA, tokB, tokC] ∧
    applyFiltersAndSort [tokA, tokB, tokC] { limit := some (-2) } = [tokA] := by
  refine ⟨?_, ?_, ?_⟩
  · rw [(applyFiltersAndSort_limit [tokA, tokB, tokC] { limit := some 2 }).1
      2 rfl (by norm_num)]
    decide
  · rw [(applyFiltersAndSort_limit [tokA, tokB, tokC] { limit := none }).2.1
      (Or.inl rfl)]
    decide
  · rw [(applyFiltersAndSort_limit [tokA, tokB, tokC] { limit := some (-2) }).2.2
      (-2) rfl (by norm_num)]
    decide

/-- C10 counterexample: the `default` (sort-by-volume) branch of
`sortTokens` IS reachable from the public query path. The route casts
`req.query.sortBy` without validation, so the query string `"foo"`
reaches the switch, falls to `default`, and sorts by volume: the result
differs from the variant whose `default` branch is a no-op. -/
theorem default_sort_branch_reachable :
    applyFiltersAndSort [lowVolTok, highVolTok] (parseOptions none (some "foo") none)
      ≠ applyFiltersAndSortND [lowVolTok, highVolTok]
          (parseOptions none (some "foo") none) := by decide

/-- C10 amended: a query with an unset sortKey applies no sorting at
all: the result is the first `min(limit, 50)` records of the snapshot in
stored order, and stripping the default sort branch changes nothing for
such queries; the default branch is however reachable via a set but
unrecognized sortBy string (see the counterexample). -/
theorem unset_sortKey_no_sort (tokens : List Token) (options : FilterOptions)
    (hns : options.sortBy = none) :
    (∀ l : Int, options.limit = some l → 1 ≤ l →
      applyFiltersAndSort tokens options = tokens.take (min l.toNat 50)) ∧
    applyFiltersAndSortND tokens options = applyFiltersAndSort tokens options := by
  have hphase : sortPhase tokens options = tokens := by
    rw [sortPhase, hns]
  constructor
  · intro l hl h1
    rw [(applyFiltersAndSort_limit tokens options).1 l hl h1, hphase]
  · rw [applyFiltersAndSort, applyFiltersAndSortND, hphase]
    have : sortPhaseND tokens options = tokens := by
      rw [sortPhaseND, hns]
    rw [this]

/-- C10 amended witness: with sortKey unset and limit 1 over a snapshot
stored low-volume-first, the result is the first stored record (not the
highest-volume one), and the stripped-default variant agrees. -/
theorem unset_sortKey_no_sort_witness :
    applyFiltersAndSort [lowVolTok, highVolTok] { sortBy := none, limit := some 1 }
      = [lowVolTok] ∧
    applyFiltersAndSortND [lowVolTok, highVolTok] { sortBy := none, limit := some 1 }
      = applyFiltersAndSort [lowVolTok, highVolTok] { sortBy := none, limit := some 1 } := by
  have h := unset_sortKey_no_sort [lowVolTok, highVolTok]
    { sortBy := none, limit := some 1 } rfl
  refine ⟨?_, h.2⟩
  rw [h.1 1 rfl (by norm_num)]
  decide

/-! ### Cache service (`CacheService`) -/

/-- C9: whenever the backing store is disconnected or the underlying
store operation fails, no cache operation raises past the service
boundary (each embedding is total and returns normally): `get` returns a
miss and `set`/`delete` leave the store unchanged, so the pipeline falls
back to the live-fetch path. -/
theorem cache_degrades_on_failure (isConnected opFails : Bool)
    (store : AListM (ℕ × List Token)) (key : String) (value : List Token) (ttl : ℕ)
    (h : isConnected = false ∨ opFails = true) :
    cacheGet isConnected opFails store key = none ∧
    cacheSet isConnected opFails store key value ttl = store ∧
    cacheDelete isConnected opFails store key = store := by
  rcases h with h | h <;> subst h <;>
    exact ⟨by simp [cacheGet], by simp [cacheSet], by simp [cacheDelete]⟩

/-- C9 witness: a disconnected store with one cached entry: `get`
misses, `set` and `delete` are no-ops. -/
theorem cache_degrades_on_failure_witness :
    cacheGet false false [("tokens:all:default", (30, [tokA]))] "tokens:all:default"
      = none ∧
    cacheSet false false [("tokens:all:default", (30, [tokA]))] "tokens:all:default"
      [tokB] 30 = [("tokens:all:default", (30, [tokA]))] ∧
    cacheDelete false false [("tokens:all:default", (30, [tokA]))] "tokens:all:default"
      = [("tokens:all:default", (30, [tokA]))] :=
  cache_degrades_on_failure false false [("tokens:all:default", (30, [tokA]))]
    "tokens:all:default" [tokB] 30 (Or.inl rfl)

end MemeAgg
